import Mathlib

/-!
Verification of the ownership-resolution core of the pr-status-monitor
repository (src/codeowners.js) and of the review-reminder commenting logic
of src/github-service.js.

JavaScript strings are modelled as `List Char`.  Each definition below embeds
one function of the source; the glob-to-regex translation chain of
`matchPattern` (a sequence of global string replacements followed by
`new RegExp`) is embedded by `globToRegexStr`, a regex parser `parseRegex`
for the dialect fragment those translations emit (literal characters,
identity escapes, `.`, groups, `*`, `?`, and character classes), and a
Brzozowski-derivative matcher `rmatch`.  `new RegExp` throwing a
`SyntaxError` on an invalid expression (for instance an unterminated group)
is modelled by `parseRegex` returning `none`, and `matchPattern` therefore
returns an `Option Bool`: `none` models the JavaScript call raising.
-/

namespace Codeowners

/-- Whitespace characters recognised by JavaScript `trim` and `\s` for the
character set that can occur here (space, tab, CR, LF, vertical tab, form feed). -/
def isWsChar (c : Char) : Bool :=
  c = ' ' || c = '\t' || c = '\r' || c = '\n' || c = '\x0b' || c = '\x0c'

/-- JavaScript `String.prototype.trim`. -/
def trimWs (s : List Char) : List Char :=
  ((s.dropWhile isWsChar).reverse.dropWhile isWsChar).reverse

/-- JavaScript `String.prototype.split` with a single-character separator,
as in `content.split('\n')`. -/
def splitOnChar (sep : Char) : List Char → List (List Char)
  | [] => [[]]
  | c :: rest =>
    if c = sep then [] :: splitOnChar sep rest
    else
      match splitOnChar sep rest with
      | [] => [[c]]
      | l :: ls => (c :: l) :: ls

mutual
/-- Accumulating state of `splitWs`: inside a token (accumulator reversed). -/
def splitWsTok (acc : List Char) : List Char → List (List Char)
  | [] => [acc.reverse]
  | c :: rest =>
    if isWsChar c then acc.reverse :: splitWsWs rest
    else splitWsTok (c :: acc) rest

/-- Accumulating state of `splitWs`: inside a whitespace run. -/
def splitWsWs : List Char → List (List Char)
  | [] => [[]]
  | c :: rest =>
    if isWsChar c then splitWsWs rest
    else splitWsTok [c] rest
end

/-- JavaScript `str.split(/\s+/)`: splits on maximal whitespace runs; a
leading (resp. trailing) whitespace run contributes a leading (resp.
trailing) empty token, and the empty string yields `[""]`. -/
def splitWs (s : List Char) : List (List Char) :=
  splitWsTok [] s

/-- JavaScript `String.prototype.replace` with a plain (non-regex, nonempty)
search string: replaces the first occurrence only. -/
def replaceFirst (p r : List Char) : List Char → List Char
  | [] => []
  | c :: s =>
    if p.isPrefixOf (c :: s) then r ++ (c :: s).drop p.length
    else c :: replaceFirst p r s

/-- Fuel-indexed worker for `replaceAll`; the fuel is only a structural
termination device and never runs out when it starts at the input length. -/
def replaceAllAux (p r : List Char) : Nat → List Char → List Char
  | _, [] => []
  | 0, s => s
  | fuel + 1, c :: s =>
    if p.isPrefixOf (c :: s) then
      r ++ replaceAllAux p r fuel (s.drop (p.length - 1))
    else c :: replaceAllAux p r fuel s

/-- JavaScript `str.replace(/lit/g, r)` for a regex that is a literal string
`p`: global left-to-right non-overlapping replacement. -/
def replaceAll (p r s : List Char) : List Char :=
  replaceAllAux p r s.length s

/-- JavaScript `s.includes(n)`: substring test. -/
def strIncludes : List Char → List Char → Bool
  | [], n => n.isPrefixOf []
  | c :: rest, n => n.isPrefixOf (c :: rest) || strIncludes rest n

/-- The normalization step of `matchPattern`:
`filename.startsWith('/') ? filename.slice(1) : filename`. -/
def stripLeadSlash (s : List Char) : List Char :=
  if s.head? = some '/' then s.tail else s

/-- JavaScript `pat.endsWith('/')`. -/
def jsEndsWithSlash (s : List Char) : Bool :=
  s.getLast? == some '/'

/-! Regular-expression engine modelling the `new RegExp` / `regex.test`
calls of `matchPattern`.  The pattern string built by the source is wrapped
in `^...$`, so `test` is full-string matching of the inner expression. -/

/-- Abstract syntax of the regex fragment the glob translation emits. -/
inductive RE where
  | fail : RE
  | eps : RE
  | lit : Char → RE
  | dot : RE
  | cls : Bool → List Char → RE
  | seq : RE → RE → RE
  | alt : RE → RE → RE
  | star : RE → RE
deriving DecidableEq, Repr

/-- Nullability: does the expression match the empty string. -/
def nullable : RE → Bool
  | .fail => false
  | .eps => true
  | .lit _ => false
  | .dot => false
  | .cls _ _ => false
  | .seq a b => nullable a && nullable b
  | .alt a b => nullable a || nullable b
  | .star _ => true

/-- Brzozowski derivative with respect to one character. -/
def deriv : RE → Char → RE
  | .fail, _ => .fail
  | .eps, _ => .fail
  | .lit c, d => if c = d then .eps else .fail
  | .dot, _ => .eps
  | .cls neg cs, d => if cs.contains d = !neg then .eps else .fail
  | .seq a b, d =>
    if nullable a then .alt (.seq (deriv a d) b) (deriv b d)
    else .seq (deriv a d) b
  | .alt a b, d => .alt (deriv a d) (deriv b d)
  | .star a, d => .seq (deriv a d) (.star a)

/-- Full-string regex matching by iterated derivatives (models
`new RegExp('^' + e + '$').test(s)`). -/
def rmatch (r : RE) : List Char → Bool
  | [] => nullable r
  | c :: rest => rmatch (deriv r c) rest

/-- Characters that may follow a backslash as an identity escape in the
modelled dialect (the translation only emits `\.` and `\/`). -/
def regexMetaChar (c : Char) : Bool :=
  c = '\\' || c = '.' || c = '/' || c = '(' || c = ')' || c = '[' || c = ']' ||
  c = '*' || c = '?' || c = '+' || c = '{' || c = '}' || c = '|' || c = '^' || c = '$'

/-- Folds a reversed atom list into a right-nested sequence. -/
def combineRev (atoms : List RE) : RE :=
  atoms.foldl (fun acc a => RE.seq a acc) RE.eps

/-- Scanner mode of the regex parser: normal position, just after a
backslash, just after an opening bracket, or inside a character class. -/
inductive PMode where
  | normal : PMode
  | escape : PMode
  | clsStart : PMode
  | cls : Bool → List Char → PMode
deriving DecidableEq, Repr

/-- Recursive-descent state machine for the modelled regex dialect.
`atoms` is the reversed atom list of the current group, `stack` the frames
of enclosing groups.  `none` models `new RegExp` raising a `SyntaxError`
(unbalanced group or bracket, dangling quantifier, or a construct outside
the modelled fragment). -/
def parseRegexLoop : List Char → PMode → List RE → List (List RE) → Option RE
  | [], mode, atoms, stack =>
    match mode, stack with
    | .normal, [] => some (combineRev atoms)
    | _, _ => none
  | c :: rest, mode, atoms, stack =>
    match mode with
    | .escape =>
      if regexMetaChar c then parseRegexLoop rest .normal (RE.lit c :: atoms) stack
      else none
    | .clsStart =>
      if c = '^' then parseRegexLoop rest (.cls true []) atoms stack
      else if c = ']' then parseRegexLoop rest .normal (RE.cls false [] :: atoms) stack
      else if c = '\\' || c = '-' then none
      else parseRegexLoop rest (.cls false [c]) atoms stack
    | .cls neg accCls =>
      if c = ']' then parseRegexLoop rest .normal (RE.cls neg accCls.reverse :: atoms) stack
      else if c = '\\' || c = '-' then none
      else parseRegexLoop rest (.cls neg (c :: accCls)) atoms stack
    | .normal =>
      if c = '\\' then parseRegexLoop rest .escape atoms stack
      else if c = '(' then parseRegexLoop rest .normal [] (atoms :: stack)
      else if c = ')' then
        match stack with
        | [] => none
        | outer :: stack2 => parseRegexLoop rest .normal (combineRev atoms :: outer) stack2
      else if c = '*' then
        match atoms with
        | [] => none
        | a :: atoms2 => parseRegexLoop rest .normal (RE.star a :: atoms2) stack
      else if c = '?' then
        match atoms with
        | [] => none
        | a :: atoms2 => parseRegexLoop rest .normal (RE.alt RE.eps a :: atoms2) stack
      else if c = '.' then parseRegexLoop rest .normal (RE.dot :: atoms) stack
      else if c = '[' then parseRegexLoop rest .clsStart atoms stack
      else if c = '+' || c = '{' || c = '}' || c = '|' || c = '^' || c = '$' || c = ']' then
        none
      else parseRegexLoop rest .normal (RE.lit c :: atoms) stack

/-- Parses a regex source string of the modelled dialect. -/
def parseRegex (cs : List Char) : Option RE :=
  parseRegexLoop cs .normal [] []

/-! The ownership-resolution core of src/codeowners.js. -/

/-- One parsed CODEOWNERS rule: `{ pattern, owners }`. -/
structure Rule where
  pattern : List Char
  owners : List (List Char)
deriving DecidableEq, Repr

/-- The glob-to-regex translation chain of `matchPattern`:
`pat.replace(/\./g,'\\.').replace(/\*\*\//g,'(.*\\/)?').replace(/\/\*\*/g,'(\\/.*)?').replace(/\*\*/g,'.*').replace(/\*/g,'[^/]*')`. -/
def globToRegexStr (pat : List Char) : List Char :=
  replaceAll ['*'] "[^/]*".toList
    (replaceAll ['*', '*'] ".*".toList
      (replaceAll ['/', '*', '*'] "(\\/.*)?".toList
        (replaceAll ['*', '*', '/'] "(.*\\/)?".toList
          (replaceAll ['.'] "\\.".toList pat))))

/-- Body of `matchPattern` after the match-all check and the
leading-slash normalization of both arguments. -/
def matchNormalized (file pat : List Char) : Option Bool :=
  if file = pat then some true
  else if jsEndsWithSlash pat then
    let dir := pat.dropLast
    some ((dir ++ ['/']).isPrefixOf file || file == dir)
  else if ['*', '.'].isPrefixOf pat then
    let ext := pat.drop 1
    some (ext.isSuffixOf file)
  else if pat.contains '*' then
    (parseRegex (globToRegexStr pat)).map (fun r => rmatch r file)
  else if !pat.contains '.' && !pat.contains '*' then
    some ((pat ++ ['/']).isPrefixOf file || file == pat)
  else some false

/-- `matchPattern(filename, pattern)` of src/codeowners.js.  `none` models
the JavaScript function raising (the `new RegExp` call throwing on an
invalid translated expression); `some b` models it returning `b`. -/
def matchPattern (filename pattern : List Char) : Option Bool :=
  if pattern = ['*'] then some true
  else matchNormalized (stripLeadSlash filename) (stripLeadSlash pattern)

/-- One iteration of the `matchFileToOwners` loop: overwrite the matched
owners when the rule's pattern matches, keep them otherwise, and propagate
an exception from `matchPattern`. -/
def resolveStep (filename : List Char) (acc : Option (List (List Char)))
    (rule : Rule) : Option (List (List Char)) :=
  acc.bind fun cur =>
    (matchPattern filename rule.pattern).map fun b =>
      if b then rule.owners else cur

/-- `matchFileToOwners(filename, codeowners)` of src/codeowners.js: scan the
rules in order, overwriting the accumulator with the owners of every rule
whose pattern matches; exceptions from `matchPattern` propagate. -/
def matchFileToOwners (filename : List Char) (codeowners : List Rule) :
    Option (List (List Char)) :=
  codeowners.foldl (resolveStep filename) (some [])

/-- `owner.replace('@', '')` of src/codeowners.js: removes the first `@`
occurring anywhere in the token (JavaScript string-pattern `replace`
replaces the first occurrence, not only a leading one). -/
def stripAt (owner : List Char) : List Char :=
  replaceFirst ['@'] [] owner

/-- The per-line body of the `parseCodeowners` loop: `none` when the line
contributes no rule (empty, comment, fewer than two tokens, or no
individual owner left after filtering). -/
def processLine (line : List Char) : Option Rule :=
  let trimmed := trimWs line
  if trimmed = [] then none
  else if trimmed.head? = some '#' then none
  else
    let parts := splitWs trimmed
    if parts.length < 2 then none
    else
      let pattern := parts.headD []
      let owners := ((parts.drop 1).map stripAt).filter (fun o => !o.contains '/')
      if owners = [] then none
      else some ⟨pattern, owners⟩

/-- `parseCodeowners(content)` of src/codeowners.js: split on newlines and
collect, in line order, the rules of the lines that produce one. -/
def parseCodeowners (content : List Char) : List Rule :=
  (splitOnChar '\n' content).filterMap processLine

/-- One entry of the changed-file list returned by the external
`getPullRequestFiles` collaborator (only the `filename` field is read). -/
structure PRFile where
  filename : List Char
deriving DecidableEq, Repr

/-- JavaScript `Set.add` on the insertion-ordered set model. -/
def addOwner (s : List (List Char)) (o : List Char) : List (List Char) :=
  if o ∈ s then s else s ++ [o]

/-- One iteration of the `getPRCodeowners` loop: resolve one changed file
and, when owners were matched, add each of them to the `Set`. -/
def aggStep (codeowners : List Rule) (acc : Option (List (List Char)))
    (f : PRFile) : Option (List (List Char)) :=
  acc.bind fun s =>
    (matchFileToOwners f.filename codeowners).map fun matchedOwners =>
      if matchedOwners.length > 0 then matchedOwners.foldl addOwner s else s

/-- `getPRCodeowners(prNumber, codeowners)` of src/codeowners.js, with the
changed-file list (fetched externally by PR number) passed directly: union
the per-file resolution results in a `Set`, returned as `Array.from(set)`
(insertion order).  Exceptions from `matchFileToOwners` propagate. -/
def getPRCodeowners (files : List PRFile) (codeowners : List Rule) :
    Option (List (List Char)) :=
  files.foldl (aggStep codeowners) (some [])

/-! The review-reminder commenting logic of src/github-service.js. -/

/-- The built-in needs-review message template of `run()`. -/
def needsReviewTemplate : List Char :=
  "👀 This PR has been open for {days} days without any reviews. {assignees} please take a look!".toList

/-- The search string of the de-duplication predicate that `commentOnPRs`
passes to `hasRecentBotComment`. -/
def inactiveNeedle : List Char :=
  "This PR has been inactive".toList

/-- The comment body built by `commentOnPRs`:
`messageTemplate.replace('{days}', days).replace('{assignees}', assignees)`
for the built-in needs-review template.  (JavaScript `$`-substitution in the
replacement string is not modelled; no replacement used here contains `$`
and the `$`-forms could only splice template text back in.) -/
def buildReviewComment (days assignees : List Char) : List Char :=
  replaceFirst "{assignees}".toList assignees
    (replaceFirst "{days}".toList days needsReviewTemplate)

/-- A fetched issue comment: user type, body, and age in days (the source
computes the age from `created_at` and the current time; it is modelled as
a field since only its comparison against the threshold is used). -/
structure IssueComment where
  userType : List Char
  body : List Char
  ageDays : Nat
deriving DecidableEq, Repr

/-- The de-duplication predicate `(c) => c.body.includes('This PR has been inactive')`. -/
def inactivePred (c : IssueComment) : Bool :=
  strIncludes c.body inactiveNeedle

/-- `hasRecentBotComment(issueNumber, predicate, dayThreshold)` of
src/github-service.js, with the fetched comment list passed directly:
`comments.find(c => c.user.type === 'Bot' && predicate(c) && age < dayThreshold)`. -/
def hasRecentBotComment (comments : List IssueComment)
    (predicate : IssueComment → Bool) (dayThreshold : Nat) : Option IssueComment :=
  comments.find? fun c =>
    c.userType == "Bot".toList && predicate c && decide (c.ageDays < dayThreshold)

/-! Helper lemmas about the string utilities. -/

theorem stripLeadSlash_of_head_ne {s : List Char} (h : s.head? ≠ some '/') :
    stripLeadSlash s = s := by
  simp [stripLeadSlash, h]

theorem stripLeadSlash_cons (s : List Char) : stripLeadSlash ('/' :: s) = s := rfl

theorem stripLeadSlash_of_not_mem {s : List Char} (h : '/' ∉ s) :
    stripLeadSlash s = s := by
  apply stripLeadSlash_of_head_ne
  cases s with
  | nil => simp
  | cons c rest =>
    simp only [List.head?_cons, ne_eq, Option.some.injEq]
    intro hc
    exact h (hc ▸ List.mem_cons_self c rest)

theorem replaceAllAux_fuel_irrel (p r : List Char) :
    ∀ (f1 : Nat) (s : List Char) (f2 : Nat), s.length ≤ f1 → s.length ≤ f2 →
      replaceAllAux p r f1 s = replaceAllAux p r f2 s := by
  intro f1
  induction f1 with
  | zero =>
    intro s f2 h1 _
    have : s = [] := List.eq_nil_of_length_eq_zero (Nat.le_zero.mp h1)
    subst this
    cases f2 <;> rfl
  | succ f1' ih =>
    intro s f2 h1 h2
    cases s with
    | nil => cases f2 <;> rfl
    | cons c s' =>
      cases f2 with
      | zero => exact absurd h2 (by simp)
      | succ f2' =>
        simp only [replaceAllAux]
        by_cases hp : p.isPrefixOf (c :: s') = true
        · rw [if_pos hp, if_pos hp]
          have hd : (s'.drop (p.length - 1)).length ≤ s'.length := by
            simp [List.length_drop]
          have h1' : s'.length ≤ f1' := by simpa using h1
          have h2' : s'.length ≤ f2' := by simpa using h2
          rw [ih _ f2' (le_trans hd h1') (le_trans hd h2')]
        · rw [if_neg hp, if_neg hp]
          have h1' : s'.length ≤ f1' := by simpa using h1
          have h2' : s'.length ≤ f2' := by simpa using h2
          rw [ih _ f2' h1' h2']

theorem replaceAll_nil (p r : List Char) : replaceAll p r [] = [] := rfl

theorem replaceAll_pos {p : List Char} (r : List Char) {s : List Char}
    (hne : p ≠ []) (hp : p.isPrefixOf s = true) :
    replaceAll p r s = r ++ replaceAll p r (s.drop p.length) := by
  cases s with
  | nil =>
    cases p with
    | nil => exact absurd rfl hne
    | cons a as => simp [List.isPrefixOf] at hp
  | cons c s' =>
    cases p with
    | nil => exact absurd rfl hne
    | cons a as =>
      show replaceAllAux _ _ (s'.length + 1) (c :: s') = _
      simp only [replaceAllAux, hp, if_pos]
      congr 1
      show replaceAllAux _ _ s'.length (s'.drop ((a :: as).length - 1)) = _
      have : (c :: s').drop (a :: as).length = s'.drop ((a :: as).length - 1) := by
        simp [List.drop_succ_cons]
      rw [this]
      exact replaceAllAux_fuel_irrel _ _ _ _ _ (by simp [List.length_drop]) (le_refl _)

theorem replaceAll_neg {p : List Char} (r : List Char) {c : Char} {s : List Char}
    (hp : p.isPrefixOf (c :: s) = false) :
    replaceAll p r (c :: s) = c :: replaceAll p r s := by
  show replaceAllAux _ _ (s.length + 1) (c :: s) = _
  simp only [replaceAllAux, hp]
  rfl

theorem replaceAll_not_mem {p r s : List Char} {c : Char}
    (hcp : c ∈ p) (hcs : c ∉ s) : replaceAll p r s = s := by
  induction s with
  | nil => rfl
  | cons a s' ih =>
    have hp : p.isPrefixOf (a :: s') = false := by
      by_contra h
      have h' : p.isPrefixOf (a :: s') = true := by
        cases hpp : p.isPrefixOf (a :: s') with
        | false => exact absurd hpp h
        | true => rfl
      exact hcs ((List.isPrefixOf_iff_prefix.mp h').subset hcp)
    rw [replaceAll_neg _ hp, ih (fun h => hcs (List.mem_cons_of_mem a h))]

theorem replaceAll_single_append (c : Char) (r x y : List Char) :
    replaceAll [c] r (x ++ y) = replaceAll [c] r x ++ replaceAll [c] r y := by
  induction x with
  | nil => rfl
  | cons a x' ih =>
    by_cases hca : c = a
    · subst hca
      have hp : [c].isPrefixOf (c :: (x' ++ y)) = true := by simp [List.isPrefixOf]
      have hp2 : [c].isPrefixOf (c :: x') = true := by simp [List.isPrefixOf]
      rw [List.cons_append, replaceAll_pos r (by simp) hp,
        replaceAll_pos r (by simp) hp2]
      simp only [List.length_cons, List.length_nil, List.drop_succ_cons, List.drop_zero]
      rw [ih, List.append_assoc]
    · have hp : [c].isPrefixOf (a :: (x' ++ y)) = false := by
        simp [List.isPrefixOf, hca]
      have hp2 : [c].isPrefixOf (a :: x') = false := by
        simp [List.isPrefixOf, hca]
      rw [List.cons_append, replaceAll_neg _ hp, replaceAll_neg _ hp2, ih, List.cons_append]

theorem mem_replaceAll_single {c : Char} {r s : List Char} {x : Char}
    (h : x ∈ replaceAll [c] r s) : x ∈ s ∨ x ∈ r := by
  induction s with
  | nil => exact absurd h (by simp [replaceAll_nil])
  | cons a s' ih =>
    by_cases hca : c = a
    · subst hca
      rw [replaceAll_pos r (by simp) (by simp [List.isPrefixOf])] at h
      simp only [List.length_cons, List.length_nil, List.drop_succ_cons, List.drop_zero] at h
      rcases List.mem_append.mp h with h' | h'
      · exact Or.inr h'
      · rcases ih h' with h'' | h''
        · exact Or.inl (List.mem_cons_of_mem _ h'')
        · exact Or.inr h''
    · rw [replaceAll_neg _ (by simp [List.isPrefixOf, hca])] at h
      rcases List.mem_cons.mp h with h' | h'
      · exact Or.inl (h' ▸ List.mem_cons_self _ _)
      · rcases ih h' with h'' | h''
        · exact Or.inl (List.mem_cons_of_mem _ h'')
        · exact Or.inr h''

theorem replaceFirst_skip {hp : Char} {pt : List Char} (r : List Char) {pre : List Char}
    (s : List Char) (h : ∀ x ∈ pre, x ≠ hp) :
    replaceFirst (hp :: pt) r (pre ++ s) = pre ++ replaceFirst (hp :: pt) r s := by
  induction pre with
  | nil => rfl
  | cons a pre' ih =>
    have hpf : (hp :: pt).isPrefixOf (a :: (pre' ++ s)) = false := by
      have : a ≠ hp := h a (List.mem_cons_self a pre')
      simp [List.isPrefixOf]
      intro he
      exact absurd he.symm this
    rw [List.cons_append, replaceFirst, if_neg (by simp [hpf]),
      ih (fun x hx => h x (List.mem_cons_of_mem a hx))]
    rfl

theorem replaceFirst_here {hp : Char} {pt : List Char} (r s : List Char) :
    replaceFirst (hp :: pt) r ((hp :: pt) ++ s) = r ++ s := by
  have hpf : (hp :: pt).isPrefixOf ((hp :: pt) ++ s) = true :=
    List.isPrefixOf_iff_prefix.mpr (List.prefix_append _ _)
  rw [List.cons_append, replaceFirst, if_pos (by rw [← List.cons_append]; exact hpf)]
  rw [← List.cons_append, List.drop_left]

theorem mem_replaceFirst_of_ne {p s : List Char} {c : Char}
    (hc : c ∈ s) (hne : c ∉ p) : c ∈ replaceFirst p [] s := by
  induction s with
  | nil => exact absurd hc (by simp)
  | cons a s' ih =>
    by_cases hpf : p.isPrefixOf (a :: s') = true
    · rw [replaceFirst, if_pos hpf]
      have : a :: s' = p ++ (a :: s').drop p.length := by
        have := List.isPrefixOf_iff_prefix.mp hpf
        rcases this with ⟨t, ht⟩
        rw [← ht, List.drop_left]
      rw [this] at hc
      rcases List.mem_append.mp hc with h' | h'
      · exact absurd h' hne
      · simpa using h'
    · rw [replaceFirst, if_neg hpf]
      rcases List.mem_cons.mp hc with h' | h'
      · exact h' ▸ List.mem_cons_self _ _
      · exact List.mem_cons_of_mem _ (ih h')

theorem mem_of_mem_replaceFirst_nil {p s : List Char} {c : Char}
    (h : c ∈ replaceFirst p [] s) : c ∈ s := by
  induction s with
  | nil => exact absurd h (by simp [replaceFirst])
  | cons a s' ih =>
    by_cases hpf : p.isPrefixOf (a :: s') = true
    · rw [replaceFirst, if_pos hpf] at h
      simp only [List.nil_append] at h
      exact List.mem_of_mem_drop h
    · rw [replaceFirst, if_neg hpf] at h
      rcases List.mem_cons.mp h with h' | h'
      · exact h' ▸ List.mem_cons_self _ _
      · exact List.mem_cons_of_mem _ (ih h')

theorem strIncludes_iff {s n : List Char} : strIncludes s n = true ↔ n <:+: s := by
  induction s with
  | nil =>
    simp only [strIncludes, List.infix_nil]
    constructor
    · intro h
      exact List.prefix_nil.mp (List.isPrefixOf_iff_prefix.mp h)
    · intro h
      subst h
      rfl
  | cons c rest ih =>
    simp only [strIncludes, Bool.or_eq_true, List.infix_cons_iff]
    constructor
    · rintro (h | h)
      · exact Or.inl (List.isPrefixOf_iff_prefix.mp h)
      · exact Or.inr (ih.mp h)
    · rintro (h | h)
      · exact Or.inl (List.isPrefixOf_iff_prefix.mpr h)
      · exact Or.inr (ih.mpr h)

theorem prefix_append_split {n x y : List Char} (h : n <+: x ++ y) :
    n <+: x ∨ ∃ n₂, n = x ++ n₂ ∧ n₂ <+: y := by
  by_cases hl : n.length ≤ x.length
  · exact Or.inl (List.prefix_of_prefix_length_le h (List.prefix_append x y) hl)
  · right
    have hx : x <+: n :=
      List.prefix_of_prefix_length_le (List.prefix_append x y) h (Nat.le_of_not_le hl)
    rcases hx with ⟨n₂, hn₂⟩
    refine ⟨n₂, hn₂.symm, ?_⟩
    rcases h with ⟨t, ht⟩
    rw [← hn₂, List.append_assoc] at ht
    exact ⟨t, List.append_cancel_left ht⟩

theorem infix_append_split {n x y : List Char} (h : n <:+: x ++ y) :
    n <:+: x ∨ (∃ n₁ n₂, n₁ ++ n₂ = n ∧ n₁ ≠ [] ∧ n₁ <:+ x ∧ n₂ <+: y) ∨ n <:+: y := by
  rcases h with ⟨s, t, hst⟩
  have hnt : n ++ t <:+ x ++ y := ⟨s, by rw [← List.append_assoc, hst]⟩
  by_cases hsx : s.length < x.length
  · have hdrop : (x ++ y).drop s.length = x.drop s.length ++ y := by
      rw [List.drop_append_eq_append_drop, Nat.sub_eq_zero_of_le (le_of_lt hsx),
        List.drop_zero]
    have hsuf : n ++ t = (x ++ y).drop s.length := by
      have : s ++ (n ++ t) = x ++ y := by rw [← List.append_assoc, hst]
      rw [← this, List.drop_left]
    have hnt2 : n <+: x.drop s.length ++ y := by
      refine ⟨t, ?_⟩
      rw [← hdrop, ← hsuf]
    rcases prefix_append_split hnt2 with h' | ⟨n₂, hn₂, hn₂y⟩
    · left
      exact h'.isInfix.trans (List.drop_suffix _ _).isInfix
    · right; left
      refine ⟨x.drop s.length, n₂, hn₂.symm, ?_, List.drop_suffix _ _, hn₂y⟩
      intro hnil
      rw [List.drop_eq_nil_iff] at hnil
      omega
  · right; right
    have hsuf : n ++ t = (x ++ y).drop s.length := by
      have : s ++ (n ++ t) = x ++ y := by rw [← List.append_assoc, hst]
      rw [← this, List.drop_left]
    have hdrop : (x ++ y).drop s.length = y.drop (s.length - x.length) := by
      rw [List.drop_append_eq_append_drop,
        List.drop_eq_nil_iff.mpr (Nat.le_of_not_lt hsx), List.nil_append]
    have : n <+: y.drop (s.length - x.length) := ⟨t, by rw [← hdrop, ← hsuf]⟩
    exact this.isInfix.trans (List.drop_suffix _ _).isInfix

/-! Relational semantics of the regex fragment and completeness of the
derivative matcher with respect to it. -/

/-- Declarative matching relation for `RE`. -/
inductive RMatch : RE → List Char → Prop where
  | eps : RMatch .eps []
  | lit (c : Char) : RMatch (.lit c) [c]
  | dot (c : Char) : RMatch .dot [c]
  | cls {neg : Bool} {cs : List Char} {c : Char} (h : cs.contains c = !neg) :
      RMatch (.cls neg cs) [c]
  | seq {a b : RE} {s t : List Char} (ha : RMatch a s) (hb : RMatch b t) :
      RMatch (.seq a b) (s ++ t)
  | altL {a b : RE} {s : List Char} (h : RMatch a s) : RMatch (.alt a b) s
  | altR {a b : RE} {s : List Char} (h : RMatch b s) : RMatch (.alt a b) s
  | starNil {a : RE} : RMatch (.star a) []
  | starCons {a : RE} {s t : List Char} (h : RMatch a s)
      (h2 : RMatch (.star a) t) : RMatch (.star a) (s ++ t)

theorem nullable_of_rmatch_nil {r : RE} {l : List Char} (h : RMatch r l)
    (hl : l = []) : nullable r = true := by
  induction h with
  | eps => rfl
  | lit c => simp at hl
  | dot c => simp at hl
  | cls h => simp at hl
  | seq ha hb iha ihb =>
    rcases List.append_eq_nil.mp hl with ⟨h1, h2⟩
    simp [nullable, iha h1, ihb h2]
  | altL h ih => simp [nullable, ih hl]
  | altR h ih => simp [nullable, ih hl]
  | starNil => rfl
  | starCons h h2 ih ih2 => rfl

theorem rmatch_deriv_of_cons {r : RE} {l : List Char} (h : RMatch r l) :
    ∀ c s, l = c :: s → RMatch (deriv r c) s := by
  induction h with
  | eps => intro c s hl; simp at hl
  | lit c' =>
    intro c s hl
    obtain ⟨rfl, rfl⟩ := List.cons_eq_cons.mp hl
    simp only [deriv, if_pos rfl]
    exact RMatch.eps
  | dot c' =>
    intro c s hl
    obtain ⟨rfl, rfl⟩ := List.cons_eq_cons.mp hl
    exact RMatch.eps
  | @cls neg cs c' hcond =>
    intro c s hl
    obtain ⟨rfl, rfl⟩ := List.cons_eq_cons.mp hl
    have hd : deriv (RE.cls neg cs) c' = RE.eps := by
      simp only [deriv]
      rw [hcond, if_pos rfl]
    rw [hd]
    exact RMatch.eps
  | @seq a b u v ha hb iha ihb =>
    intro c s hl
    cases u with
    | nil =>
      simp only [List.nil_append] at hl
      have hna : nullable a = true := nullable_of_rmatch_nil ha rfl
      simp only [deriv, hna, if_pos]
      exact RMatch.altR (ihb c s hl)
    | cons x u' =>
      rw [List.cons_append] at hl
      obtain ⟨rfl, rfl⟩ := List.cons_eq_cons.mp hl
      have hda : RMatch (deriv a x) u' := iha x u' rfl
      simp only [deriv]
      by_cases hna : nullable a = true
      · simp only [hna, if_pos]
        exact RMatch.altL (RMatch.seq hda hb)
      · rw [if_neg hna]
        exact RMatch.seq hda hb
  | altL h ih =>
    intro c s hl
    exact RMatch.altL (ih c s hl)
  | altR h ih =>
    intro c s hl
    exact RMatch.altR (ih c s hl)
  | starNil => intro c s hl; simp at hl
  | @starCons a u v h h2 ih ih2 =>
    intro c s hl
    cases u with
    | nil =>
      simp only [List.nil_append] at hl
      exact ih2 c s hl
    | cons x u' =>
      rw [List.cons_append] at hl
      obtain ⟨rfl, rfl⟩ := List.cons_eq_cons.mp hl
      exact RMatch.seq (ih x u' rfl) h2

theorem rmatch_of_RMatch {l : List Char} {r : RE} (h : RMatch r l) :
    rmatch r l = true := by
  induction l generalizing r with
  | nil => exact nullable_of_rmatch_nil h rfl
  | cons c rest ih =>
    show rmatch (deriv r c) rest = true
    exact ih (rmatch_deriv_of_cons h c rest rfl)

/-! Symbolic computation of the glob translation and the parse of
double-wildcard patterns `**/*suffix`. -/

/-- Characters of a suffix pattern that the translation passes through as
plain regex literals (the dot is also allowed: it is escaped by the first
translation step and parsed back as a literal). -/
def plainSuffixChar (c : Char) : Bool :=
  !(c = '/' || c = '\\' || c = '(' || c = ')' || c = '[' || c = ']' ||
    c = '{' || c = '}' || c = '*' || c = '+' || c = '?' || c = '|' ||
    c = '^' || c = '$')

/-- First translation step (`/\./g` → `\\.`), as its own abbreviation. -/
def dotEsc (e : List Char) : List Char :=
  replaceAll ['.'] "\\.".toList e

theorem dotEsc_nil : dotEsc [] = [] := rfl

theorem dotEsc_cons (c : Char) (e : List Char) :
    dotEsc (c :: e) = if c = '.' then '\\' :: '.' :: dotEsc e else c :: dotEsc e := by
  by_cases hc : c = '.'
  · subst hc
    rw [if_pos rfl]
    unfold dotEsc
    rw [replaceAll_pos _ (by simp) (by simp [List.isPrefixOf])]
    rfl
  · rw [if_neg hc]
    unfold dotEsc
    rw [replaceAll_neg _ (by simp [List.isPrefixOf]; intro he; exact absurd he.symm hc)]

theorem mem_dotEsc {e : List Char} {x : Char} (h : x ∈ dotEsc e) :
    x ∈ e ∨ x = '\\' ∨ x = '.' := by
  rcases mem_replaceAll_single h with h' | h'
  · exact Or.inl h'
  · have h2 : x = '\\' ∨ x = '.' := by simpa using h'
    exact Or.inr h2

theorem slash_not_mem_dotEsc {e : List Char} (h : '/' ∉ e) : '/' ∉ dotEsc e := by
  intro hmem
  rcases mem_dotEsc hmem with h' | h' | h' <;> simp_all

theorem star_not_mem_dotEsc {e : List Char} (h : '*' ∉ e) : '*' ∉ dotEsc e := by
  intro hmem
  rcases mem_dotEsc hmem with h' | h' | h' <;> simp_all

theorem plain_slash_not_mem {e : List Char}
    (he : ∀ c ∈ e, plainSuffixChar c = true) : '/' ∉ e := by
  intro h
  have := he _ h
  simp [plainSuffixChar] at this

theorem plain_star_not_mem {e : List Char}
    (he : ∀ c ∈ e, plainSuffixChar c = true) : '*' ∉ e := by
  intro h
  have := he _ h
  simp [plainSuffixChar] at this

/-- The glob translation of a pattern `**/*` followed by a plain suffix:
the `**/` collapses to `(.[^/]*\/)?` (note the leading `.` contributed by
the later `*` substitution rewriting inside the replacement text) and the
lone `*` to `[^/]*`. -/
theorem globToRegexStr_dstar (e : List Char)
    (he : ∀ c ∈ e, plainSuffixChar c = true) :
    globToRegexStr ("**/*".toList ++ e) =
      "(.[^/]*\\/)?[^/]*".toList ++ dotEsc e := by
  have hsl : '/' ∉ dotEsc e := slash_not_mem_dotEsc (plain_slash_not_mem he)
  have hst : '*' ∉ dotEsc e := star_not_mem_dotEsc (plain_star_not_mem he)
  have hpre : ∀ t : List Char, '*' ∉ t →
      ([('*' : Char), '*', '/'].isPrefixOf ('*' :: t)) = false := by
    intro t ht
    by_contra hc
    have hc' : ([('*' : Char), '*', '/'].isPrefixOf ('*' :: t)) = true := by
      cases h' : ([('*' : Char), '*', '/'].isPrefixOf ('*' :: t)) with
      | false => exact absurd h' hc
      | true => rfl
    rcases List.isPrefixOf_iff_prefix.mp hc' with ⟨u, hu⟩
    rw [List.cons_append] at hu
    obtain ⟨-, h2⟩ := List.cons_eq_cons.mp hu
    rw [List.cons_append] at h2
    exact ht (h2 ▸ List.mem_cons_self _ _)
  have hpre2 : ∀ t : List Char, '*' ∉ t →
      ([('*' : Char), '*'].isPrefixOf ('*' :: t)) = false := by
    intro t ht
    by_contra hc
    have hc' : ([('*' : Char), '*'].isPrefixOf ('*' :: t)) = true := by
      cases h' : ([('*' : Char), '*'].isPrefixOf ('*' :: t)) with
      | false => exact absurd h' hc
      | true => rfl
    rcases List.isPrefixOf_iff_prefix.mp hc' with ⟨u, hu⟩
    rw [List.cons_append] at hu
    obtain ⟨-, h2⟩ := List.cons_eq_cons.mp hu
    rw [List.cons_append] at h2
    exact ht (h2 ▸ List.mem_cons_self _ _)
  unfold globToRegexStr
  -- step 1: escape dots
  have s1 : replaceAll ['.'] "\\.".toList ("**/*".toList ++ e) =
      "**/*".toList ++ dotEsc e := by
    rw [replaceAll_single_append]
    rfl
  rw [s1]
  -- step 2: the leading occurrence of `**/` is replaced, no other exists
  have s2 : replaceAll ['*', '*', '/'] "(.*\\/)?".toList ("**/*".toList ++ dotEsc e) =
      "(.*\\/)?".toList ++ '*' :: dotEsc e := by
    show replaceAll ['*', '*', '/'] "(.*\\/)?".toList
        ('*' :: '*' :: '/' :: '*' :: dotEsc e) = _
    rw [replaceAll_pos _ (by simp) (by simp [List.isPrefixOf])]
    simp only [List.length_cons, List.length_nil, List.drop_succ_cons, List.drop_zero]
    rw [replaceAll_neg _ (hpre _ hst), replaceAll_not_mem (by simp) hsl]
  rw [s2]
  -- step 3: no occurrence of `/**`
  have s3 : replaceAll ['/', '*', '*'] "(\\/.*)?".toList
      ("(.*\\/)?".toList ++ '*' :: dotEsc e) = "(.*\\/)?".toList ++ '*' :: dotEsc e := by
    show replaceAll ['/', '*', '*'] "(\\/.*)?".toList
        ('(' :: '.' :: '*' :: '\\' :: '/' :: ')' :: '?' :: '*' :: dotEsc e) = _
    rw [replaceAll_neg _ (by simp [List.isPrefixOf]),
      replaceAll_neg _ (by simp [List.isPrefixOf]),
      replaceAll_neg _ (by simp [List.isPrefixOf]),
      replaceAll_neg _ (by simp [List.isPrefixOf]),
      replaceAll_neg _ (by simp [List.isPrefixOf]),
      replaceAll_neg _ (by simp [List.isPrefixOf]),
      replaceAll_neg _ (by simp [List.isPrefixOf]),
      replaceAll_neg _ (by simp [List.isPrefixOf]),
      replaceAll_not_mem (show '/' ∈ [('/' : Char), '*', '*'] by simp) hsl]
    rfl
  rw [s3]
  -- step 4: no occurrence of `**`
  have s4 : replaceAll ['*', '*'] ".*".toList
      ("(.*\\/)?".toList ++ '*' :: dotEsc e) = "(.*\\/)?".toList ++ '*' :: dotEsc e := by
    show replaceAll ['*', '*'] ".*".toList
        ('(' :: '.' :: '*' :: '\\' :: '/' :: ')' :: '?' :: '*' :: dotEsc e) = _
    rw [replaceAll_neg _ (by simp [List.isPrefixOf]),
      replaceAll_neg _ (by simp [List.isPrefixOf]),
      replaceAll_neg _ (by simp [List.isPrefixOf]),
      replaceAll_neg _ (by simp [List.isPrefixOf]),
      replaceAll_neg _ (by simp [List.isPrefixOf]),
      replaceAll_neg _ (by simp [List.isPrefixOf]),
      replaceAll_neg _ (by simp [List.isPrefixOf]),
      replaceAll_neg _ (hpre2 _ hst),
      replaceAll_not_mem (show '*' ∈ [('*' : Char), '*'] by simp) hst]
    rfl
  rw [s4]
  -- step 5: lone stars become `[^/]*`
  show replaceAll ['*'] "[^/]*".toList ("(.*\\/)?*".toList ++ dotEsc e) = _
  rw [replaceAll_single_append, replaceAll_not_mem (show '*' ∈ [('*' : Char)] by simp) hst]
  rfl

/-- The group regex that the parser builds for the translated `**/` part. -/
def reGroup : RE :=
  RE.seq RE.dot (RE.seq (RE.star (RE.cls true ['/'])) (RE.seq (RE.lit '/') RE.eps))

/-- Right-nested literal sequence for a character list. -/
def litSeq (e : List Char) : RE :=
  (e.map RE.lit).foldr RE.seq RE.eps

theorem parse_dstar_front (t : List Char) :
    parseRegexLoop ("(.[^/]*\\/)?[^/]*".toList ++ t) .normal [] [] =
      parseRegexLoop t .normal
        [RE.star (RE.cls true ['/']), RE.alt RE.eps reGroup] [] := rfl

theorem parse_literal_tail (e : List Char) (he : ∀ c ∈ e, plainSuffixChar c = true) :
    ∀ atoms, parseRegexLoop (dotEsc e) .normal atoms [] =
      some (combineRev ((e.map RE.lit).reverse ++ atoms)) := by
  induction e with
  | nil => intro atoms; simp [dotEsc_nil, parseRegexLoop]
  | cons c e' ih =>
    intro atoms
    have hc := he c (List.mem_cons_self c e')
    have he' : ∀ x ∈ e', plainSuffixChar x = true :=
      fun x hx => he x (List.mem_cons_of_mem c hx)
    rw [dotEsc_cons]
    by_cases hdot : c = '.'
    · subst hdot
      rw [if_pos rfl]
      show parseRegexLoop ('\\' :: '.' :: dotEsc e') .normal atoms [] = _
      have step : parseRegexLoop ('\\' :: '.' :: dotEsc e') .normal atoms [] =
          parseRegexLoop (dotEsc e') .normal (RE.lit '.' :: atoms) [] := rfl
      rw [step, ih he']
      congr 1
      simp [List.append_assoc]
    · rw [if_neg hdot]
      simp only [plainSuffixChar, Bool.not_eq_true', Bool.or_eq_false_iff,
        decide_eq_false_iff_not] at hc
      obtain ⟨⟨⟨⟨⟨⟨⟨⟨⟨⟨⟨⟨⟨hslh, hbsl⟩, hpo⟩, hpc⟩, hbo⟩, hbc⟩, hcbo⟩, hcbc⟩,
        hstar⟩, hplus⟩, hq⟩, hbar⟩, hcar⟩, hdol⟩ := hc
      show parseRegexLoop (c :: dotEsc e') .normal atoms [] = _
      have step : parseRegexLoop (c :: dotEsc e') .normal atoms [] =
          parseRegexLoop (dotEsc e') .normal (RE.lit c :: atoms) [] := by
        simp only [parseRegexLoop]
        rw [if_neg hbsl, if_neg hpo, if_neg hpc, if_neg hstar, if_neg hq,
          if_neg hdot, if_neg hbo]
        rw [if_neg (by simp [hplus, hcbo, hcbc, hbar, hcar, hdol, hbc])]
      rw [step, ih he']
      congr 1
      simp [List.append_assoc]

theorem combineRev_tail (e : List Char) (s1 s2 : RE) :
    combineRev ((e.map RE.lit).reverse ++ [s1, s2]) =
      RE.seq s2 (RE.seq s1 (litSeq e)) := by
  unfold combineRev litSeq
  rw [List.foldl_append, List.foldl_reverse]
  rfl

theorem rmatch_litSeq (e : List Char) : RMatch (litSeq e) e := by
  induction e with
  | nil => exact RMatch.eps
  | cons c e' ih =>
    show RMatch (RE.seq (RE.lit c) (litSeq e')) (c :: e')
    exact RMatch.seq (RMatch.lit c) ih

theorem rmatch_star_noslash {g : List Char} (h : '/' ∉ g) :
    RMatch (RE.star (RE.cls true ['/'])) g := by
  induction g with
  | nil => exact RMatch.starNil
  | cons c g' ih =>
    have hc : c ≠ '/' := fun hc => h (hc ▸ List.mem_cons_self c g')
    have hcls : RMatch (RE.cls true ['/']) [c] := by
      apply RMatch.cls
      have hcc : (c == '/') = false := by simp [hc]
      simp [List.contains, List.elem, hcc]
    exact RMatch.starCons hcls (ih fun hm => h (List.mem_cons_of_mem c hm))

/-- Zero-depth matching of `**/*suffix` patterns against bare filenames:
shared engine lemma used by the claim theorem. -/
theorem matchPattern_dstar_aux (e g : List Char)
    (he : ∀ c ∈ e, plainSuffixChar c = true) (hg : '/' ∉ g) :
    matchPattern (g ++ e) ("**/*".toList ++ e) = some true := by
  have hse : '/' ∉ e := plain_slash_not_mem he
  have hfile : '/' ∉ g ++ e := by
    intro h
    rcases List.mem_append.mp h with h' | h'
    exacts [hg h', hse h']
  have hpat : ("**/*".toList ++ e) = '*' :: '*' :: '/' :: '*' :: e := rfl
  have hne : ('*' :: '*' :: '/' :: '*' :: e) ≠ ['*'] := by simp
  rw [matchPattern, hpat, if_neg hne, stripLeadSlash_of_not_mem hfile,
    stripLeadSlash_of_head_ne (by simp)]
  have hne2 : g ++ e ≠ '*' :: '*' :: '/' :: '*' :: e := by
    intro h
    apply hfile
    rw [h]
    simp
  have hends : jsEndsWithSlash ('*' :: '*' :: '/' :: '*' :: e) = false := by
    unfold jsEndsWithSlash
    cases heq : e.getLast? with
    | none =>
      have he0 : e = [] := by simpa using heq
      subst he0
      decide
    | some lc =>
      have hx : lc ∈ e.getLast? := by rw [heq]; rfl
      obtain ⟨hnn, hlc⟩ := List.mem_getLast?_eq_getLast hx
      have hmem : lc ∈ e := hlc ▸ List.getLast_mem hnn
      have hlcne : lc ≠ '/' := fun h => hse (h ▸ hmem)
      have hg2 : ('*' :: '*' :: '/' :: '*' :: e).getLast? = some lc := by
        have hne3 : e ≠ [] := by intro h; rw [h] at heq; simp at heq
        rw [show ('*' :: '*' :: '/' :: '*' :: e) = ['*', '*', '/', '*'] ++ e from rfl,
          List.getLast?_append_of_ne_nil _ hne3, heq]
      rw [hg2]
      simp [hlcne]
  have hext : ((['*', '.'] : List Char).isPrefixOf ('*' :: '*' :: '/' :: '*' :: e)) = false := by
    simp [List.isPrefixOf]
  have hcontains : (('*' :: '*' :: '/' :: '*' :: e).contains '*') = true := by simp
  rw [matchNormalized, if_neg hne2, if_neg (by simp [hends]), if_neg (by simp [hext]),
    if_pos hcontains]
  rw [show ('*' :: '*' :: '/' :: '*' :: e) = "**/*".toList ++ e from rfl,
    globToRegexStr_dstar e he]
  show (parseRegexLoop ("(.[^/]*\\/)?[^/]*".toList ++ dotEsc e) .normal [] []).map
      (fun r => rmatch r (g ++ e)) = some true
  rw [parse_dstar_front, parse_literal_tail e he, combineRev_tail]
  have hm0 : RMatch (RE.seq (RE.alt RE.eps reGroup)
      (RE.seq (RE.star (RE.cls true ['/'])) (litSeq e))) ([] ++ (g ++ e)) :=
    RMatch.seq (RMatch.altL RMatch.eps)
      (RMatch.seq (rmatch_star_noslash hg) (rmatch_litSeq e))
  have hm : RMatch (RE.seq (RE.alt RE.eps reGroup)
      (RE.seq (RE.star (RE.cls true ['/'])) (litSeq e))) (g ++ e) := by
    simpa using hm0
  rw [Option.map_some']
  exact congrArg some (rmatch_of_RMatch hm)


/-! Fold lemmas for the owner resolver and the changeset aggregator. -/

theorem resolveFold_all_false (f : List Char) :
    ∀ (l : List Rule) (cur : List (List Char)),
      (∀ r' ∈ l, matchPattern f r'.pattern = some false) →
      l.foldl (resolveStep f) (some cur) = some cur := by
  intro l
  induction l with
  | nil => intro cur _; rfl
  | cons r l' ih =>
    intro cur h
    have hr := h r (List.mem_cons_self r l')
    have hstep : resolveStep f (some cur) r = some cur := by
      simp [resolveStep, hr]
    rw [List.foldl_cons, hstep]
    exact ih cur fun r' hr' => h r' (List.mem_cons_of_mem r hr')

theorem resolveFold_some (f : List Char) :
    ∀ (l : List Rule) (cur : List (List Char)),
      (∀ r' ∈ l, (matchPattern f r'.pattern).isSome = true) →
      ∃ cur', l.foldl (resolveStep f) (some cur) = some cur' := by
  intro l
  induction l with
  | nil => intro cur _; exact ⟨cur, rfl⟩
  | cons r l' ih =>
    intro cur h
    obtain ⟨b, hb⟩ := Option.isSome_iff_exists.mp (h r (List.mem_cons_self r l'))
    have hstep : resolveStep f (some cur) r = some (if b then r.owners else cur) := by
      simp [resolveStep, hb]
    rw [List.foldl_cons, hstep]
    exact ih _ fun r' hr' => h r' (List.mem_cons_of_mem r hr')

theorem mem_addOwnerFold :
    ∀ (l : List (List Char)) (s : List (List Char)) (o : List Char),
      o ∈ l.foldl addOwner s ↔ o ∈ s ∨ o ∈ l := by
  intro l
  induction l with
  | nil => intro s o; simp
  | cons x l' ih =>
    intro s o
    rw [List.foldl_cons, ih]
    have haddm : o ∈ addOwner s x ↔ o ∈ s ∨ o = x := by
      unfold addOwner
      by_cases hx : x ∈ s
      · rw [if_pos hx]
        constructor
        · exact Or.inl
        · rintro (h | rfl)
          exacts [h, hx]
      · rw [if_neg hx]
        simp
    rw [haddm]
    simp only [List.mem_cons]
    tauto

theorem nodup_addOwnerFold :
    ∀ (l : List (List Char)) (s : List (List Char)), s.Nodup →
      (l.foldl addOwner s).Nodup := by
  intro l
  induction l with
  | nil => intro s h; exact h
  | cons x l' ih =>
    intro s h
    rw [List.foldl_cons]
    apply ih
    unfold addOwner
    by_cases hx : x ∈ s
    · rwa [if_pos hx]
    · rw [if_neg hx]
      simp [List.nodup_append, h, hx]

theorem aggFold_characterize (rules : List Rule) :
    ∀ (files : List PRFile) (s : List (List Char)),
      (∀ f ∈ files, (matchFileToOwners f.filename rules).isSome = true) →
      ∃ res, files.foldl (aggStep rules) (some s) = some res ∧
        (∀ o, o ∈ res ↔ o ∈ s ∨ ∃ f ∈ files, ∃ os,
          matchFileToOwners f.filename rules = some os ∧ o ∈ os) ∧
        (s.Nodup → res.Nodup) := by
  intro files
  induction files with
  | nil =>
    intro s _
    refine ⟨s, rfl, fun o => ?_, fun h => h⟩
    simp
  | cons f fs ih =>
    intro s hok
    obtain ⟨os, hos⟩ := Option.isSome_iff_exists.mp (hok f (List.mem_cons_self f fs))
    have hstep : aggStep rules (some s) f =
        some (if os.length > 0 then os.foldl addOwner s else s) := by
      simp [aggStep, hos]
    have hmem : ∀ o, o ∈ (if os.length > 0 then os.foldl addOwner s else s) ↔
        o ∈ s ∨ o ∈ os := by
      intro o
      by_cases hlen : os.length > 0
      · rw [if_pos hlen, mem_addOwnerFold]
      · have hnil : os = [] := List.eq_nil_of_length_eq_zero (by omega)
        subst hnil
        rw [if_neg hlen]
        simp
    have hnd : s.Nodup → (if os.length > 0 then os.foldl addOwner s else s).Nodup := by
      intro h
      by_cases hlen : os.length > 0
      · rw [if_pos hlen]; exact nodup_addOwnerFold os s h
      · rw [if_neg hlen]; exact h
    obtain ⟨res, hres, hmemr, hndr⟩ :=
      ih (if os.length > 0 then os.foldl addOwner s else s)
        (fun g hg => hok g (List.mem_cons_of_mem f hg))
    refine ⟨res, ?_, ?_, fun h => hndr (hnd h)⟩
    · rw [List.foldl_cons, hstep]
      exact hres
    · intro o
      rw [hmemr o, hmem o]
      constructor
      · rintro ((ho | ho) | ⟨g, hg, os2, hos2, ho2⟩)
        · exact Or.inl ho
        · exact Or.inr ⟨f, List.mem_cons_self f fs, os, hos, ho⟩
        · exact Or.inr ⟨g, List.mem_cons_of_mem f hg, os2, hos2, ho2⟩
      · rintro (ho | ⟨g, hg, os2, hos2, ho2⟩)
        · exact Or.inl (Or.inl ho)
        · rcases List.mem_cons.mp hg with rfl | hg'
          · have hos2' : os2 = os := by
              rw [hos] at hos2
              exact (Option.some.inj hos2).symm
            subst hos2'
            exact Or.inl (Or.inr ho2)
          · exact Or.inr ⟨g, hg', os2, hos2, ho2⟩

/-! Lemmas about owner-token normalization. -/

theorem slash_mem_stripAt {t : List Char} (h : '/' ∈ t) : '/' ∈ stripAt t :=
  mem_replaceFirst_of_ne h (by simp)

theorem stripAt_no_slash {t : List Char} (h : '/' ∉ t) : '/' ∉ stripAt t :=
  fun hmem => h (mem_of_mem_replaceFirst_nil hmem)

/-! Decomposition of the generated review-reminder comment body. -/

/-- Template text before the `\x7bdays\x7d` placeholder. -/
def reviewPre : List Char := "👀 This PR has been open for ".toList

/-- Template text between the two placeholders. -/
def reviewMid : List Char := " days without any reviews. ".toList

/-- Template text after the `\x7bassignees\x7d` placeholder. -/
def reviewSuf : List Char := " please take a look!".toList

/-- The `\x7bdays\x7d` placeholder. -/
def daysToken : List Char := ['\x7b', 'd', 'a', 'y', 's', '\x7d']

/-- The `\x7bassignees\x7d` placeholder. -/
def assigneesToken : List Char :=
  ['\x7b', 'a', 's', 's', 'i', 'g', 'n', 'e', 'e', 's', '\x7d']

theorem buildReviewComment_decomp (d a : List Char)
    (hd : ∀ c ∈ d, c.isDigit = true) :
    buildReviewComment d a = reviewPre ++ (d ++ (reviewMid ++ (a ++ reviewSuf))) := by
  have hde : ∀ c ∈ d, c ≠ '\x7b' := by
    intro c hc heq
    have := hd c hc
    rw [heq] at this
    exact absurd this (by decide)
  unfold buildReviewComment
  have h0 : needsReviewTemplate =
      reviewPre ++ (daysToken ++ (reviewMid ++ (assigneesToken ++ reviewSuf))) := rfl
  have hpd : "\x7bdays\x7d".toList = daysToken := rfl
  have hpa : "\x7bassignees\x7d".toList = assigneesToken := rfl
  rw [h0, hpd, hpa]
  have hd1 : daysToken = '\x7b' :: ['d', 'a', 'y', 's', '\x7d'] := rfl
  have ha1 : assigneesToken =
      '\x7b' :: ['a', 's', 's', 'i', 'g', 'n', 'e', 'e', 's', '\x7d'] := rfl
  rw [hd1, ha1]
  have hprePre : ∀ x ∈ reviewPre, x ≠ '\x7b' := by decide
  rw [replaceFirst_skip d _ hprePre, replaceFirst_here]
  have hgroup : reviewPre ++ (d ++ (reviewMid ++
      (('\x7b' :: ['a', 's', 's', 'i', 'g', 'n', 'e', 'e', 's', '\x7d']) ++ reviewSuf))) =
      (reviewPre ++ d ++ reviewMid) ++
        (('\x7b' :: ['a', 's', 's', 'i', 'g', 'n', 'e', 'e', 's', '\x7d']) ++ reviewSuf) := by
    simp [List.append_assoc]
  rw [hgroup]
  have hpre2 : ∀ x ∈ reviewPre ++ d ++ reviewMid, x ≠ '\x7b' := by
    intro x hx
    rcases List.mem_append.mp hx with hx | hx
    · rcases List.mem_append.mp hx with hx | hx
      · exact hprePre x hx
      · exact hde x hx
    · have hmidFact : ∀ y ∈ reviewMid, y ≠ '\x7b' := by decide
      exact hmidFact x hx
  rw [replaceFirst_skip a _ hpre2, replaceFirst_here]
  simp [List.append_assoc]

theorem reviewComment_no_needle (d a : List Char)
    (hd : ∀ c ∈ d, c.isDigit = true)
    (ha : strIncludes a inactiveNeedle = false) :
    strIncludes (buildReviewComment d a) inactiveNeedle = false := by
  rw [buildReviewComment_decomp d a hd]
  by_contra hcon
  have htrue : strIncludes (reviewPre ++ (d ++ (reviewMid ++ (a ++ reviewSuf))))
      inactiveNeedle = true := by
    cases h : strIncludes (reviewPre ++ (d ++ (reviewMid ++ (a ++ reviewSuf))))
        inactiveNeedle with
    | true => rfl
    | false => exact absurd h hcon
  have hinf := strIncludes_iff.mp htrue
  have hTd : 'T' ∉ d := by
    intro hmem
    have := hd 'T' hmem
    exact absurd this (by decide)
  have hheadT : ∀ n₁ : List Char, n₁ ≠ [] → n₁ <+: inactiveNeedle → 'T' ∈ n₁ := by
    intro n₁ hne hpre
    cases n₁ with
    | nil => exact absurd rfl hne
    | cons x xs =>
      rcases hpre with ⟨t, ht⟩
      have h1 : ((x :: xs) ++ t).head? = inactiveNeedle.head? := by rw [ht]
      have h2 : inactiveNeedle.head? = some 'T' := rfl
      rw [h2] at h1
      have hx : x = 'T' := by simpa using h1
      rw [hx]
      exact List.mem_cons_self _ _
  rcases infix_append_split hinf with h1 | ⟨n₁, n₂, hn, hne, hsuf, hpre⟩ | h1
  · exact absurd h1 (by decide)
  · have hmem : n₁ ∈ reviewPre.tails := (List.mem_tails _ _).mpr hsuf
    have hfact : ∀ x ∈ reviewPre.tails, x = [] ∨ ¬ x <+: inactiveNeedle := by decide
    rcases hfact n₁ hmem with h' | h'
    exacts [hne h', h' ⟨n₂, hn⟩]
  rcases infix_append_split h1 with h2 | ⟨n₁, n₂, hn, hne, hsuf, hpre⟩ | h2
  · exact hTd (h2.subset (show 'T' ∈ inactiveNeedle by decide))
  · exact hTd (hsuf.subset (hheadT n₁ hne ⟨n₂, hn⟩))
  rcases infix_append_split h2 with h3 | ⟨n₁, n₂, hn, hne, hsuf, hpre⟩ | h3
  · exact absurd h3 (by decide)
  · have hTmid : 'T' ∉ reviewMid := by decide
    exact hTmid (hsuf.subset (hheadT n₁ hne ⟨n₂, hn⟩))
  rcases infix_append_split h3 with h4 | ⟨n₁, n₂, hn, hne, hsuf, hpre⟩ | h4
  · rw [← strIncludes_iff, ha] at h4
    exact absurd h4 (by simp)
  · by_cases hz : n₂ = []
    · subst hz
      rw [List.append_nil] at hn
      have hs2 : inactiveNeedle <:+ a := hn ▸ hsuf
      have hinfa : strIncludes a inactiveNeedle = true := strIncludes_iff.mpr hs2.isInfix
      rw [ha] at hinfa
      exact absurd hinfa (by simp)
    · have hmem2 : n₂ ∈ inactiveNeedle.tails := (List.mem_tails _ _).mpr ⟨n₁, hn⟩
      have hlen : n₂.length < inactiveNeedle.length := by
        have hl := congrArg List.length hn
        rw [List.length_append] at hl
        have hn1 : n₁.length ≠ 0 := fun h => hne (List.eq_nil_of_length_eq_zero h)
        omega
      have hfact2 : ∀ v ∈ inactiveNeedle.tails,
          v = [] ∨ inactiveNeedle.length ≤ v.length ∨ ¬ v <+: reviewSuf := by decide
      rcases hfact2 n₂ hmem2 with h' | h' | h'
      · exact hz h'
      · omega
      · exact h' hpre
  · exact absurd h4 (by decide)


/-! Shared helper for leading-slash invariance. -/

theorem matchPattern_slash_inv_aux (p q : List Char) (hp : p.head? ≠ some '/')
    (hq : q.head? ≠ some '/') (hq2 : q ≠ ['*']) :
    matchPattern ('/' :: p) q = matchPattern p q ∧
    matchPattern p ('/' :: q) = matchPattern p q ∧
    matchPattern ('/' :: p) ('/' :: q) = matchPattern p q := by
  have hsq : ('/' :: q) ≠ ['*'] := by
    intro h
    injection h with h1 _
    exact absurd h1 (by decide)
  have hsp : stripLeadSlash ('/' :: p) = p := stripLeadSlash_cons p
  have hsq2 : stripLeadSlash ('/' :: q) = q := stripLeadSlash_cons q
  have h1 : stripLeadSlash p = p := stripLeadSlash_of_head_ne hp
  have h2 : stripLeadSlash q = q := stripLeadSlash_of_head_ne hq
  refine ⟨?_, ?_, ?_⟩ <;>
    simp [matchPattern, hq2, hsq, hsp, hsq2, h1, h2]

/-! Helpers characterizing when `matchPattern` returns a value. -/

theorem matchNormalized_isSome (file pat : List Char)
    (h : pat.contains '*' = false) : (matchNormalized file pat).isSome = true := by
  have hstar : '*' ∉ pat := by simpa using h
  unfold matchNormalized
  by_cases h1 : file = pat
  · simp [h1]
  rw [if_neg h1]
  by_cases h2 : jsEndsWithSlash pat = true
  · simp [h2]
  rw [if_neg h2]
  by_cases h3 : (['*', '.'] : List Char).isPrefixOf pat = true
  · simp [h3]
  rw [if_neg h3, if_neg (by simp [hstar])]
  split <;> simp

theorem matchNormalized_none {file pat : List Char}
    (h : matchNormalized file pat = none) :
    pat.contains '*' = true ∧ parseRegex (globToRegexStr pat) = none := by
  by_cases hc : pat.contains '*' = true
  · refine ⟨hc, ?_⟩
    unfold matchNormalized at h
    by_cases h1 : file = pat
    · simp [h1] at h
    rw [if_neg h1] at h
    by_cases h2 : jsEndsWithSlash pat = true
    · simp [h2] at h
    rw [if_neg h2] at h
    by_cases h3 : (['*', '.'] : List Char).isPrefixOf pat = true
    · simp [h3] at h
    rw [if_neg h3, if_pos hc] at h
    simpa using h
  · have := matchNormalized_isSome file pat (by
      cases hcc : pat.contains '*' with
      | false => rfl
      | true => exact absurd hcc hc)
    rw [h] at this
    simp at this


/-! Claim theorems. -/

/-- Claim C1 (counterexample): the claim fails as stated — the rule set
below contains two rules whose patterns match the path `x`, yet
`matchFileToOwners` returns nothing at all (models the JavaScript function
raising) instead of the last matching rule's owners, because a later rule's
pattern `(*` makes `matchPattern` throw. -/
theorem matchFileToOwners_lastMatch_cex :
    matchPattern "x".toList "x".toList = some true ∧
    matchFileToOwners "x".toList
      [⟨"x".toList, ["a".toList]⟩, ⟨"x".toList, ["b".toList]⟩,
       ⟨"(*".toList, ["c".toList]⟩] = none := by decide

/-- Claim C1 (amended): provided every rule's pattern evaluates without
error on the given path, the Owner Resolver returns exactly the owner set
of the last matching rule in declaration order (never a union, never an
earlier rule's owners), and returns the empty set when no rule matches. -/
theorem matchFileToOwners_lastMatch (f : List Char) (pre post : List Rule) (r : Rule)
    (hok : ∀ r' ∈ pre, (matchPattern f r'.pattern).isSome = true)
    (hr : matchPattern f r.pattern = some true)
    (hpost : ∀ r' ∈ post, matchPattern f r'.pattern = some false) :
    matchFileToOwners f (pre ++ r :: post) = some r.owners ∧
    ∀ rules : List Rule, (∀ r' ∈ rules, matchPattern f r'.pattern = some false) →
      matchFileToOwners f rules = some [] := by
  constructor
  · unfold matchFileToOwners
    rw [List.foldl_append]
    obtain ⟨cur', hcur'⟩ := resolveFold_some f pre [] hok
    rw [hcur', List.foldl_cons]
    have hstep : resolveStep f (some cur') r = some r.owners := by
      simp [resolveStep, hr]
    rw [hstep]
    exact resolveFold_all_false f post r.owners hpost
  · intro rules hall
    unfold matchFileToOwners
    exact resolveFold_all_false f rules [] hall

/-- Claim C1 (witness): last-match-wins evaluated on a concrete two-rule
set where both rules match. -/
theorem matchFileToOwners_lastMatch_witness :
    (∀ r' ∈ [Rule.mk "*".toList ["a".toList]],
      (matchPattern "x.js".toList r'.pattern).isSome = true) ∧
    matchPattern "x.js".toList "*.js".toList = some true ∧
    matchFileToOwners "x.js".toList
      ([Rule.mk "*".toList ["a".toList]] ++
        Rule.mk "*.js".toList ["b".toList] :: []) = some ["b".toList] :=
  ⟨by decide, by decide,
    (matchFileToOwners_lastMatch "x.js".toList [Rule.mk "*".toList ["a".toList]] []
      (Rule.mk "*.js".toList ["b".toList]) (by decide) (by decide) (by decide)).1⟩

/-- Claim C2 (counterexample): the ownership core is not total — on the
pattern `(*` the glob translation is the invalid regular expression
`^([^/]*$` and `matchPattern` throws (modelled as `none`) instead of
returning a boolean. -/
theorem matchPattern_total_cex : matchPattern "x".toList "(*".toList = none := by decide

/-- Claim C2 (amended): the Rule Parser and the pure aggregation are total
by construction, and `matchPattern` returns a boolean whenever the
normalized pattern contains no `*`; it can fail to return only on a
pattern whose normalized form contains `*` and whose glob translation is
an invalid regular expression. -/
theorem matchPattern_total_no_star (p q : List Char)
    (h : (stripLeadSlash q).contains '*' = false) :
    (matchPattern p q).isSome = true ∧
    ∀ p' q' : List Char, matchPattern p' q' = none →
      (stripLeadSlash q').contains '*' = true ∧
      parseRegex (globToRegexStr (stripLeadSlash q')) = none := by
  constructor
  · by_cases hq : q = ['*']
    · simp [matchPattern, hq]
    · rw [matchPattern, if_neg hq]
      exact matchNormalized_isSome _ _ h
  · intro p' q' hnone
    by_cases hq : q' = ['*']
    · rw [matchPattern, if_pos hq] at hnone
      exact absurd hnone (by simp)
    · rw [matchPattern, if_neg hq] at hnone
      exact matchNormalized_none hnone

/-- Claim C2 (witness): totality at a concrete star-free pattern. -/
theorem matchPattern_total_no_star_witness :
    (stripLeadSlash "src".toList).contains '*' = false ∧
    (matchPattern "a/b".toList "src".toList).isSome = true :=
  ⟨by decide, (matchPattern_total_no_star "a/b".toList "src".toList (by decide)).1⟩

/-- Claim C3 (counterexample): a leading slash is not always cosmetic —
the match-all check precedes normalization, so `*` and `/*` differ on the
path `a/b`; and prefixing a slash to a pattern that already starts with a
slash also changes the result. -/
theorem matchPattern_slash_inv_cex :
    (matchPattern "a/b".toList "*".toList = some true ∧
     matchPattern "a/b".toList "/*".toList = some false) ∧
    (matchPattern "a".toList "/a".toList = some true ∧
     matchPattern "a".toList "//a".toList = some false) := by decide

/-- Claim C3 (amended): for every path and pattern that do not already
begin with `/`, and with the pattern not the match-all `*`, the Pattern
Matcher result is identical across all four combinations of optionally
prefixing one leading slash to either argument. -/
theorem matchPattern_slash_invariance (p q : List Char) (hp : p.head? ≠ some '/')
    (hq : q.head? ≠ some '/') (hq2 : q ≠ ['*']) :
    matchPattern ('/' :: p) q = matchPattern p q ∧
    matchPattern p ('/' :: q) = matchPattern p q ∧
    matchPattern ('/' :: p) ('/' :: q) = matchPattern p q :=
  matchPattern_slash_inv_aux p q hp hq hq2

/-- Claim C3 (witness): slash invariance evaluated at a concrete pair. -/
theorem matchPattern_slash_invariance_witness :
    ("src/app.js".toList : List Char).head? ≠ some '/' ∧
    ("src".toList : List Char).head? ≠ some '/' ∧
    matchPattern ('/' :: "src/app.js".toList) "src".toList =
      matchPattern "src/app.js".toList "src".toList ∧
    matchPattern "src/app.js".toList ('/' :: "src".toList) =
      matchPattern "src/app.js".toList "src".toList :=
  ⟨by decide, by decide,
    (matchPattern_slash_invariance "src/app.js".toList "src".toList
      (by decide) (by decide) (by decide)).1,
    (matchPattern_slash_invariance "src/app.js".toList "src".toList
      (by decide) (by decide) (by decide)).2.1⟩

/-- Claim C4 (counterexample): the claim fails as stated — `src/` has no
special characters, matches `src/app.js` through the directory rule, yet
`src/app.js` neither equals `src/` nor starts with `src//`; and for a
pattern already starting with `/` the leading-slash combinations disagree. -/
theorem matchPattern_plain_cex :
    (matchPattern "src/app.js".toList "src/".toList = some true ∧
     ¬("src/app.js".toList = "src/".toList ∨
        ("src/".toList ++ ['/']) <+: "src/app.js".toList)) ∧
    (matchPattern "src".toList "/src".toList = some true ∧
     matchPattern "src".toList "//src".toList = some false) := by decide

/-- Claim C4 (amended): for patterns with no `*` and no `.` that do not
end with `/`, and arguments that do not already begin with `/`, the
Pattern Matcher returns true exactly when the path equals the pattern or
starts with the pattern followed by `/`, it never throws, and the result
is invariant under prefixing one leading slash to either argument. -/
theorem matchPattern_plain (p q : List Char)
    (hstar : '*' ∉ q) (hdot : '.' ∉ q) (hq_end : q.getLast? ≠ some '/')
    (hp_head : p.head? ≠ some '/') (hq_head : q.head? ≠ some '/') :
    (matchPattern p q = some true ↔ (p = q ∨ q ++ ['/'] <+: p)) ∧
    (matchPattern p q).isSome = true ∧
    (matchPattern ('/' :: p) q = matchPattern p q ∧
     matchPattern p ('/' :: q) = matchPattern p q ∧
     matchPattern ('/' :: p) ('/' :: q) = matchPattern p q) := by
  have hq2 : q ≠ ['*'] := by
    intro h
    exact hstar (h ▸ List.mem_cons_self _ _)
  have hmain : matchPattern p q = some ((q ++ ['/']).isPrefixOf p || p == q) ∨
      (p = q ∧ matchPattern p q = some true) := by
    rw [matchPattern, if_neg hq2, stripLeadSlash_of_head_ne hp_head,
      stripLeadSlash_of_head_ne hq_head]
    by_cases hpq : p = q
    · right
      refine ⟨hpq, ?_⟩
      simp [matchNormalized, hpq]
    · left
      have hends : jsEndsWithSlash q = false := by
        unfold jsEndsWithSlash
        cases hg : q.getLast? with
        | none => rfl
        | some c =>
          have : c ≠ '/' := fun hc => hq_end (by rw [hg, hc])
          simp [this]
      have hext : (['*', '.'] : List Char).isPrefixOf q = false := by
        by_contra hc
        have hc' : (['*', '.'] : List Char).isPrefixOf q = true := by
          cases hcc : (['*', '.'] : List Char).isPrefixOf q with
          | false => exact absurd hcc hc
          | true => rfl
        exact hstar ((List.isPrefixOf_iff_prefix.mp hc').subset
          (List.mem_cons_self _ _))
      rw [matchNormalized, if_neg hpq, if_neg (by simp [hends]),
        if_neg (by simp [hext]), if_neg (by simp [hstar]),
        if_pos (by simp [hstar, hdot])]
  refine ⟨?_, ?_, matchPattern_slash_inv_aux p q hp_head hq_head hq2⟩
  · rcases hmain with hm | ⟨hpq, hm⟩
    · rw [hm]
      constructor
      · intro h
        have hb := Option.some.inj h
        rcases Bool.or_eq_true_iff.mp hb with h' | h'
        · exact Or.inr (List.isPrefixOf_iff_prefix.mp h')
        · exact Or.inl (by simpa using h')
      · rintro (rfl | h')
        · simp
        · have : (q ++ ['/']).isPrefixOf p = true := List.isPrefixOf_iff_prefix.mpr h'
          simp [this]
    · rw [hm]
      simp [hpq]
  · rcases hmain with hm | ⟨_, hm⟩ <;> simp [hm]

/-- Claim C4 (witness): plain-pattern matching evaluated at a concrete
pair via the theorem. -/
theorem matchPattern_plain_witness :
    ('*' ∉ "src".toList ∧ '.' ∉ "src".toList) ∧
    matchPattern "src/app.js".toList "src".toList = some true :=
  ⟨⟨by decide, by decide⟩,
    (matchPattern_plain "src/app.js".toList "src".toList (by decide) (by decide)
      (by decide) (by decide) (by decide)).1.mpr (Or.inr (by decide))⟩

/-- Claim C5: a double-wildcard pattern `**/*suffix` with no leading
directory segment matches a bare filename (no `/`) that ends with the
suffix — the `**/` prefix matches zero intervening directories.  The
suffix is an arbitrary string of plain pattern characters (dots allowed),
and the filename is any slash-free string ending in it. -/
theorem matchPattern_doublestar_zero_depth (e g : List Char)
    (he : ∀ c ∈ e, plainSuffixChar c = true) (hg : '/' ∉ g) :
    matchPattern (g ++ e) ("**/*".toList ++ e) = some true :=
  matchPattern_dstar_aux e g he hg

/-- Claim C5 (witness): `**/*.test.js` matches the bare filename
`file.test.js`. -/
theorem matchPattern_doublestar_zero_depth_witness :
    (∀ c ∈ ".test.js".toList, plainSuffixChar c = true) ∧ '/' ∉ "file".toList ∧
    matchPattern "file.test.js".toList "**/*.test.js".toList = some true :=
  ⟨by decide, by decide,
    matchPattern_doublestar_zero_depth ".test.js".toList "file".toList
      (by decide) (by decide)⟩

/-- Claim C6: provided every changed file's resolution evaluates without
error, the Changeset Aggregator returns the deduplicated union of the
Owner Resolver's results over the files, its result is invariant as a set
under permutation of the file list, and it is empty when the file list is
empty or no file matches any rule. -/
theorem getPRCodeowners_dedup_union (files : List PRFile) (rules : List Rule)
    (hok : ∀ f ∈ files, (matchFileToOwners f.filename rules).isSome = true) :
    ∃ res, getPRCodeowners files rules = some res ∧ res.Nodup ∧
      (∀ o, o ∈ res ↔ ∃ f ∈ files, ∃ os,
        matchFileToOwners f.filename rules = some os ∧ o ∈ os) ∧
      (∀ files₂, files.Perm files₂ →
        ∃ res₂, getPRCodeowners files₂ rules = some res₂ ∧
          ∀ o, (o ∈ res₂ ↔ o ∈ res)) ∧
      ((∀ f ∈ files, matchFileToOwners f.filename rules = some []) → res = []) ∧
      (files = [] → res = []) := by
  obtain ⟨res, hres, hmem, hnd⟩ := aggFold_characterize rules files [] hok
  have hmem' : ∀ o, o ∈ res ↔ ∃ f ∈ files, ∃ os,
      matchFileToOwners f.filename rules = some os ∧ o ∈ os := by
    intro o
    rw [hmem o]
    simp
  refine ⟨res, hres, hnd List.nodup_nil, hmem', ?_, ?_, ?_⟩
  · intro files₂ hperm
    have hok₂ : ∀ f ∈ files₂, (matchFileToOwners f.filename rules).isSome = true :=
      fun f hf => hok f (hperm.mem_iff.mpr hf)
    obtain ⟨res₂, hres₂, hmem₂, _⟩ := aggFold_characterize rules files₂ [] hok₂
    refine ⟨res₂, hres₂, fun o => ?_⟩
    rw [hmem₂ o, hmem' o]
    simp only [List.not_mem_nil, false_or]
    constructor
    · rintro ⟨f, hf, os, hos, ho⟩
      exact ⟨f, hperm.mem_iff.mpr hf, os, hos, ho⟩
    · rintro ⟨f, hf, os, hos, ho⟩
      exact ⟨f, hperm.mem_iff.mp hf, os, hos, ho⟩
  · intro hempty
    rw [List.eq_nil_iff_forall_not_mem]
    intro o ho
    rcases (hmem' o).mp ho with ⟨f, hf, os, hos, ho2⟩
    rw [hempty f hf] at hos
    have : os = [] := (Option.some.inj hos).symm
    subst this
    exact absurd ho2 (by simp)
  · intro hfe
    subst hfe
    have h2 : some ([] : List (List Char)) = some res := hres
    exact (Option.some.inj h2).symm

/-- Claim C6 (witness): aggregation evaluated on a concrete changeset. -/
theorem getPRCodeowners_dedup_union_witness :
    (∀ f ∈ [PRFile.mk "a.js".toList, PRFile.mk "b.md".toList],
      (matchFileToOwners f.filename [Rule.mk "*.js".toList ["alice".toList]]).isSome = true) ∧
    ∃ res, getPRCodeowners [PRFile.mk "a.js".toList, PRFile.mk "b.md".toList]
        [Rule.mk "*.js".toList ["alice".toList]] = some res ∧ res.Nodup :=
  ⟨by decide,
    (getPRCodeowners_dedup_union [PRFile.mk "a.js".toList, PRFile.mk "b.md".toList]
      [Rule.mk "*.js".toList ["alice".toList]] (by decide)).imp
      fun res h => ⟨h.1, h.2.1⟩⟩

/-- Claim C7: the Rule Parser is total by construction (a Lean function on
strings), and a line contributes no rule when it is empty, is a comment,
has fewer than two whitespace-separated tokens, or when all its owner
tokens contain `/`; every rule it emits has a non-empty owner list. -/
theorem parseCodeowners_total_filter :
    (∀ line : List Char, trimWs line = [] → processLine line = none) ∧
    (∀ line : List Char, (trimWs line).head? = some '#' → processLine line = none) ∧
    (∀ line : List Char, (splitWs (trimWs line)).length < 2 → processLine line = none) ∧
    (∀ (line p : List Char) (rest : List (List Char)),
      splitWs (trimWs line) = p :: rest → (∀ t ∈ rest, '/' ∈ t) →
      processLine line = none) ∧
    (∀ (content : List Char) (r : Rule), r ∈ parseCodeowners content →
      r.owners ≠ []) := by
  refine ⟨?_, ?_, ?_, ?_, ?_⟩
  · intro line h
    simp [processLine, h]
  · intro line h
    unfold processLine
    by_cases h0 : trimWs line = []
    · simp [h0]
    · simp [h0, h]
  · intro line h
    unfold processLine
    by_cases h0 : trimWs line = []
    · simp [h0]
    by_cases h1 : (trimWs line).head? = some '#'
    · simp [h0, h1]
    · simp [h0, h1, h]
  · intro line p rest hsplit hslash
    unfold processLine
    by_cases h0 : trimWs line = []
    · simp [h0]
    by_cases h1 : (trimWs line).head? = some '#'
    · simp [h0, h1]
    rw [if_neg h0, if_neg h1]
    by_cases h2 : (splitWs (trimWs line)).length < 2
    · simp [h2]
    rw [if_neg h2, hsplit]
    have hrest : ((p :: rest).drop 1) = rest := rfl
    rw [hrest]
    have hfil : ((rest.map stripAt).filter (fun o => !o.contains '/')) = [] := by
      rw [List.filter_eq_nil_iff]
      intro o ho
      rcases List.mem_map.mp ho with ⟨t, ht, rfl⟩
      have hm : '/' ∈ stripAt t := slash_mem_stripAt (hslash t ht)
      simp [hm]
    rw [hfil]
    simp
  · intro content r hr
    rcases List.mem_filterMap.mp hr with ⟨line, _, hsome⟩
    simp only [processLine] at hsome
    by_cases h0 : trimWs line = []
    · rw [if_pos h0] at hsome
      exact absurd hsome (by simp)
    rw [if_neg h0] at hsome
    by_cases h1 : (trimWs line).head? = some '#'
    · rw [if_pos h1] at hsome
      exact absurd hsome (by simp)
    rw [if_neg h1] at hsome
    by_cases h2 : (splitWs (trimWs line)).length < 2
    · rw [if_pos h2] at hsome
      exact absurd hsome (by simp)
    rw [if_neg h2] at hsome
    by_cases h3 : (((splitWs (trimWs line)).drop 1).map stripAt).filter
        (fun o => !o.contains '/') = []
    · rw [if_pos h3] at hsome
      exact absurd hsome (by simp)
    rw [if_neg h3] at hsome
    have hinj := Option.some.inj hsome
    rw [← hinj]
    exact h3

/-- Claim C7 (witness): the parser drops concrete empty, comment,
single-token and team-only lines. -/
theorem parseCodeowners_total_filter_witness :
    processLine "".toList = none ∧ processLine "# note".toList = none ∧
    processLine "  lonely".toList = none ∧
    processLine "*.md @org/docs".toList = none :=
  ⟨parseCodeowners_total_filter.1 _ (by decide),
   parseCodeowners_total_filter.2.1 _ (by decide),
   parseCodeowners_total_filter.2.2.1 _ (by decide),
   parseCodeowners_total_filter.2.2.2.1 _ "*.md".toList ["@org/docs".toList]
     (by decide) (by decide)⟩

/-- Claim C8 (code evaluated at the failing input): `owner.replace('@','')`
removes the first `@` anywhere in the token, so the owner token `a@b` is
emitted as `ab`, not preserved as `a@b` — the code's own comment says
"Remove @ prefix" but the call strips a non-leading `@` too. -/
theorem stripAt_strips_inner_at :
    stripAt "a@b".toList = "ab".toList ∧
    parseCodeowners "*.js a@b".toList =
      [Rule.mk "*.js".toList ["ab".toList]] := by decide

/-- Claim C9: every comment body generated from the built-in needs-review
template (for a numeric day count and any assignee text not containing the
needle) does not contain `This PR has been inactive`, so the recent-bot-
comment predicate is false on it and `hasRecentBotComment` never finds a
prior such comment — a duplicate comment is posted on every run. -/
theorem reviewComment_dedup_never_fires (d a : List Char)
    (hd : ∀ c ∈ d, c.isDigit = true)
    (ha : strIncludes a inactiveNeedle = false) :
    strIncludes (buildReviewComment d a) inactiveNeedle = false ∧
    (∀ age : Nat, inactivePred ⟨"Bot".toList, buildReviewComment d a, age⟩ = false) ∧
    ∀ (comments : List IssueComment) (threshold : Nat),
      (∀ c ∈ comments, ∃ d2 a2, (∀ ch ∈ d2, ch.isDigit = true) ∧
        strIncludes a2 inactiveNeedle = false ∧ c.body = buildReviewComment d2 a2) →
      hasRecentBotComment comments inactivePred threshold = none := by
  refine ⟨reviewComment_no_needle d a hd ha, ?_, ?_⟩
  · intro age
    exact reviewComment_no_needle d a hd ha
  · intro comments threshold hall
    unfold hasRecentBotComment
    rw [List.find?_eq_none]
    intro c hc hp
    obtain ⟨d2, a2, hd2, ha2, hbody⟩ := hall c hc
    simp only [Bool.and_eq_true] at hp
    obtain ⟨⟨_, hpred⟩, _⟩ := hp
    unfold inactivePred at hpred
    rw [hbody, reviewComment_no_needle d2 a2 hd2 ha2] at hpred
    exact absurd hpred (by simp)

/-- Claim C9 (witness): the de-duplication predicate is false on the
concrete generated body for five days and assignee `@alice`. -/
theorem reviewComment_dedup_never_fires_witness :
    (∀ c ∈ "5".toList, c.isDigit = true) ∧
    strIncludes "@alice".toList inactiveNeedle = false ∧
    strIncludes (buildReviewComment "5".toList "@alice".toList) inactiveNeedle = false :=
  ⟨by decide, by decide,
    (reviewComment_dedup_never_fires "5".toList "@alice".toList
      (by decide) (by decide)).1⟩

/-- Claim C10: on a declaration line whose tokens after the pattern
include a `#` token followed by further tokens, the parser emits the `#`
token and every later slash-free token (with its first `@` stripped) as
owner identities instead of ignoring the inline comment. -/
theorem processLine_inline_comment (line p : List Char) (pre post : List (List Char))
    (h0 : trimWs line ≠ []) (h1 : (trimWs line).head? ≠ some '#')
    (hsplit : splitWs (trimWs line) = p :: (pre ++ "#".toList :: post)) :
    ∃ r, processLine line = some r ∧
      r.owners = (((pre ++ "#".toList :: post).map stripAt).filter
        (fun o => !o.contains '/')) ∧
      "#".toList ∈ r.owners ∧
      ∀ t ∈ post, '/' ∉ t → stripAt t ∈ r.owners := by
  unfold processLine
  rw [if_neg h0, if_neg h1]
  have hlen : ¬ (splitWs (trimWs line)).length < 2 := by
    rw [hsplit]
    simp only [List.length_cons, List.length_append, Nat.not_lt]
    omega
  rw [if_neg hlen, hsplit]
  have hrest : ((p :: (pre ++ "#".toList :: post)).drop 1) = pre ++ "#".toList :: post := rfl
  rw [hrest]
  have hhash : "#".toList ∈ (((pre ++ "#".toList :: post).map stripAt).filter
      (fun o => !o.contains '/')) := by
    rw [List.mem_filter]
    constructor
    · exact List.mem_map.mpr ⟨"#".toList, by simp, by decide⟩
    · decide
  have hnonempty : (((pre ++ "#".toList :: post).map stripAt).filter
      (fun o => !o.contains '/')) ≠ [] := fun h => by
    rw [h] at hhash
    exact absurd hhash (by simp)
  rw [if_neg hnonempty]
  refine ⟨_, rfl, rfl, hhash, ?_⟩
  intro t ht hslash
  rw [List.mem_filter]
  constructor
  · exact List.mem_map.mpr ⟨t, by simp [ht], rfl⟩
  · have := stripAt_no_slash hslash
    simp [this]

/-- Claim C10 (witness): the inline comment tokens of a concrete line end
up in the owner list. -/
theorem processLine_inline_comment_witness :
    splitWs (trimWs "*.js @alice # review this".toList) =
      "*.js".toList :: (["@alice".toList] ++ "#".toList ::
        ["review".toList, "this".toList]) ∧
    ∃ r, processLine "*.js @alice # review this".toList = some r ∧
      "#".toList ∈ r.owners :=
  ⟨by decide,
    (processLine_inline_comment "*.js @alice # review this".toList "*.js".toList
      ["@alice".toList] ["review".toList, "this".toList]
      (by decide) (by decide) (by decide)).imp
      fun r h => ⟨h.1, h.2.2.1⟩⟩

end Codeowners
